import Mathlib

/-
Verification of the QUBO problem-formulation and solver-orchestration core:
a shallow embedding of src/quantum_aegis (problem/qubo.py, solvers/classical,
solvers/quantum) over exact rational arithmetic, together with theorems
settling the stated properties of that code.
-/

namespace QuantumAegis

/-- Binary minimum on rationals, written with an explicit comparison so that
concrete instances evaluate inside the kernel. -/
def rmin (a b : ℚ) : ℚ := if b ≤ a then b else a

/-- Binary maximum on rationals, written with an explicit comparison. -/
def rmax (a b : ℚ) : ℚ := if a ≤ b then b else a

/-- Minimum of a list of rationals, scanning left as numpy does;
returns 0 for the empty list (numpy raises there, and every caller
guarantees a nonempty array). -/
def listMin : List ℚ → ℚ
  | [] => 0
  | a :: t => t.foldl rmin a

/-- Maximum of a list of rationals, scanning left as numpy does;
returns 0 for the empty list. -/
def listMax : List ℚ → ℚ
  | [] => 0
  | a :: t => t.foldl rmax a

/-- Embedding of QUBOProblem._normalize: if all values are equal
(max equals min) return the uniform array 1/len, otherwise min-max
scale each entry to the unit interval. -/
def normalize (arr : List ℚ) : List ℚ :=
  if listMax arr = listMin arr then
    List.replicate arr.length (1 / (arr.length : ℚ))
  else
    arr.map (fun x => (x - listMin arr) / (listMax arr - listMin arr))

/-- Embedding of the QUBOProblem state after construction: the two
normalized cost arrays, the weights, and the penalty coefficient. -/
structure QUBOProblem where
  R : List ℚ
  D : List ℚ
  alpha : ℚ
  beta : ℚ
  penalty : ℚ
deriving DecidableEq

/-- Problem size N, the length of the risk-cost array. -/
def QUBOProblem.N (p : QUBOProblem) : ℕ := p.R.length

/-- Embedding of QUBOProblem.__init__: the constructor raises when the two
cost arrays differ in length, and numpy raises inside _normalize on an empty
array; otherwise it stores the normalized arrays, weights and penalty. -/
def mkQUBO (risk dist : List ℚ) (alpha beta penalty : ℚ) : Option QUBOProblem :=
  if dist.length = risk.length ∧ risk ≠ [] then
    some { R := normalize risk, D := normalize dist,
           alpha := alpha, beta := beta, penalty := penalty }
  else
    none

/-- Per-index linear cost alpha * R[i] + beta * D[i]. -/
def cost (p : QUBOProblem) (i : ℕ) : ℚ :=
  p.alpha * p.R.getD i 0 + p.beta * p.D.getD i 0

/-- Elementwise cost array alpha * R + beta * D (numpy elementwise arithmetic,
as built in GreedySolver.solve and in the evaluate linear term). -/
def costList (p : QUBOProblem) : List ℚ :=
  List.zipWith (fun r d => p.alpha * r + p.beta * d) p.R p.D

/-- Linear part of evaluate: np.sum of the elementwise product of the cost
array with the bitstring. -/
def evalLinear (p : QUBOProblem) (x : List ℚ) : ℚ :=
  (List.zipWith (fun c v => c * v) (costList p) x).sum

/-- Body of QUBOProblem.evaluate once the shape check has passed:
linear costs plus penalty times (sum x - 1) squared. -/
def evalCore (p : QUBOProblem) (x : List ℚ) : ℚ :=
  evalLinear p x + p.penalty * (x.sum - 1) ^ 2

/-- Embedding of QUBOProblem.evaluate: none models the ValueError raised
when the bitstring length differs from N. -/
def QUBOProblem.evaluate (p : QUBOProblem) (x : List ℚ) : Option ℚ :=
  if x.length ≠ p.N then none else some (evalCore p x)

/-- Width-n binary print of i, most significant bit first, exactly as
format(i, "0nb") followed by the digit-to-int list comprehension. -/
def bitstringOf (n i : ℕ) : List ℚ :=
  (List.range n).map (fun j => if (i / 2 ^ (n - 1 - j)) % 2 = 1 then (1 : ℚ) else 0)

/-- Integer encoded by a 0/1 bitstring read most significant bit first;
the decoding companion of bitstringOf, used to relate arbitrary bitstrings
to the enumeration order of the brute-force scan. -/
def encodeBits : List ℚ → ℕ
  | [] => 0
  | a :: t => (if a = 1 then 1 else 0) * 2 ^ t.length + encodeBits t

/-- One loop iteration of QUBOProblem.get_optimal_solution: none models the
initial best_x = None with infinite best_energy, and the update is the strict
comparison energy < best_energy. -/
def scanStep (p : QUBOProblem) (best : Option (List ℚ × ℚ)) (i : ℕ) :
    Option (List ℚ × ℚ) :=
  let x := bitstringOf p.N i
  let e := evalCore p x
  match best with
  | none => some (x, e)
  | some b => if e < b.2 then some (x, e) else some b

/-- Embedding of QUBOProblem.get_optimal_solution: scan all integers
0 .. 2^N - 1 in ascending order, keeping the first strict improvement. -/
def QUBOProblem.get_optimal_solution (p : QUBOProblem) : Option (List ℚ × ℚ) :=
  (List.range (2 ^ p.N)).foldl (scanStep p) none

/-- Entry (i, j) of the QUBO matrix built by _build_qubo_matrix:
diagonal alpha*R[i] + beta*D[i] - penalty, off-diagonal 2*penalty. -/
def Qmat (p : QUBOProblem) (i j : ℕ) : ℚ :=
  if i = j then cost p i - p.penalty else 2 * p.penalty

/-- The full N by N QUBO matrix as a list of rows. -/
def Qmatrix (p : QUBOProblem) : List (List ℚ) :=
  (List.range p.N).map (fun i => (List.range p.N).map (fun j => Qmat p i j))

/-- Magnitude threshold 1e-10 below which build_hamiltonian drops a term. -/
def emitThreshold : ℚ := 1 / 10 ^ 10

/-- Coefficient h[i] exactly as computed by the loops in build_hamiltonian:
start from Q[i][i]/2 and add Q[i][j]/4 for every j different from i. -/
def hcoef (p : QUBOProblem) (i : ℕ) : ℚ :=
  (List.range p.N).foldl
    (fun acc j => if j ≠ i then acc + Qmat p i j / 4 else acc)
    (Qmat p i i / 2)

/-- Coefficient J[i][j] = Q[i][j]/4 as computed by build_hamiltonian. -/
def Jcoef (p : QUBOProblem) (i j : ℕ) : ℚ := Qmat p i j / 4

/-- Single-Z terms emitted by build_hamiltonian: index i paired with h[i],
kept only when the magnitude exceeds the threshold. -/
def singleTerms (p : QUBOProblem) : List (ℕ × ℚ) :=
  (List.range p.N).filterMap
    (fun i => if emitThreshold < |hcoef p i| then some (i, hcoef p i) else none)

/-- Two-body Z terms emitted by build_hamiltonian: pairs (i, j) with i < j
paired with J[i][j], kept only when the magnitude exceeds the threshold. -/
def pairTerms (p : QUBOProblem) : List ((ℕ × ℕ) × ℚ) :=
  (List.range p.N).flatMap (fun i =>
    (List.range' (i + 1) (p.N - (i + 1))).filterMap
      (fun j => if emitThreshold < |Jcoef p i j| then some ((i, j), Jcoef p i j) else none))

/-- Constant term of build_hamiltonian: np.sum(Q)/4 + np.sum(np.diag(Q))/4. -/
def hamConstant (p : QUBOProblem) : ℚ :=
  ((Qmatrix p).map List.sum).sum / 4
    + ((List.range p.N).map (fun i => Qmat p i i)).sum / 4

/-- Return value of build_hamiltonian: either the Pauli list built from the
emitted terms, or the identity operator scaled by the constant when the
Pauli list is empty. -/
inductive PauliOp where
  | fromList (singles : List (ℕ × ℚ)) (pairs : List ((ℕ × ℕ) × ℚ)) : PauliOp
  | identity (n : ℕ) (c : ℚ) : PauliOp
deriving DecidableEq

/-- Embedding of build_hamiltonian: emit the thresholded single and pair
terms, or the pure-constant identity operator when both lists are empty. -/
def build_hamiltonian (p : QUBOProblem) : PauliOp :=
  if singleTerms p = [] ∧ pairTerms p = [] then
    .identity p.N (hamConstant p)
  else
    .fromList (singleTerms p) (pairTerms p)

/-- Spin-form energy reconstructed from the build_hamiltonian output, as the
round-trip property prescribes: sum of h_i * z_i over emitted single terms,
plus J_ij * z_i * z_j over emitted pair terms, plus the dropped constant,
with z_i = 1 - 2 * x_i. -/
def spinEnergy (p : QUBOProblem) (x : List ℚ) : ℚ :=
  ((singleTerms p).map (fun t => t.2 * (1 - 2 * x.getD t.1 0))).sum
    + ((pairTerms p).map
        (fun t => t.2 * (1 - 2 * x.getD t.1.1 0) * (1 - 2 * x.getD t.1.2 0))).sum
    + hamConstant p

/-- Length-n bitstring with a single 1 at index i, as built by
np.zeros followed by x[i] = 1. -/
def oneHot (n i : ℕ) : List ℚ :=
  (List.range n).map (fun j => if j = i then (1 : ℚ) else 0)

/-- Number of entries equal to 1; on 0/1 bitstrings this is the number of
set bits. -/
def numOnes (x : List ℚ) : ℕ := x.count 1

/-- One scanning step of np.argmin: strict improvement keeps the first
occurrence of the minimum. The pair carries (best index, best value). -/
def argminP : List ℚ → ℕ → ℕ × ℚ → ℕ × ℚ
  | [], _, best => best
  | a :: t, i, best =>
      if a < best.2 then argminP t (i + 1) (i, a) else argminP t (i + 1) best

/-- Embedding of np.argmin on a rational list: index of the first occurrence
of the minimum (0 on the empty list, where numpy raises). -/
def argminList : List ℚ → ℕ
  | [] => 0
  | a :: t => (argminP t 1 (0, a)).1

/-- Constraint-repair step shared by QAOASolver.solve and VQESolver.solve:
if np.sum(x) is not 1, discard x and set the single bit at the argmin of
the combined cost array. -/
def repairBitstring (p : QUBOProblem) (x : List ℚ) : List ℚ :=
  if x.sum ≠ 1 then oneHot p.N (argminList (costList p)) else x

/-- Solver result record for the classical solvers: the bitstring, its
energy, and the method tag carried by the returned dictionary (none when
the dictionary has no method key). Elapsed wall-clock time is outside the
embedding. -/
structure Result where
  bitstring : List ℚ
  energy : ℚ
  method : Option String
deriving DecidableEq

/-- Embedding of GreedySolver.solve: argmin of the combined cost array,
one-hot bitstring there, energy via the problem evaluate, method "greedy". -/
def greedySolve (p : QUBOProblem) : Result :=
  let idx := argminList (costList p)
  let x := oneHot p.N idx
  { bitstring := x, energy := evalCore p x, method := some "greedy" }

/-- Embedding of BruteForceSolver.solve: wrap get_optimal_solution with the
method tag "brute_force". -/
def bruteForceSolve (p : QUBOProblem) : Option Result :=
  (p.get_optimal_solution).map
    (fun be => { bitstring := be.1, energy := be.2, method := some "brute_force" })

/-- One record appended to optimization_history per oracle evaluation by the
default callback of the variational solvers. -/
structure HistoryRecord where
  iteration : ℕ
  energy : ℚ
  parameters : List ℚ
deriving DecidableEq

/-- Mutable state of a variational solver instance that is relevant to the
history buffer: the optimization_history list. -/
structure VarSolverState where
  optimization_history : List HistoryRecord
deriving DecidableEq

/-- State after __init__ of QAOASolver or VQESolver: the history buffer is
the empty list. -/
def initVarSolver : VarSolverState := ⟨[]⟩

/-- History-buffer effect of one solve call on a variational solver, with the
oracle evaluations of that call abstracted as the list of records the default
callback appends: solve never resets the buffer, each evaluation appends one
record, and the returned dictionary carries the whole buffer. Returns the new
solver state together with the optimization_history of the returned result. -/
def solveHistoryResult (s : VarSolverState) (evals : List HistoryRecord) :
    VarSolverState × List HistoryRecord :=
  let h := evals.foldl (fun buf r => buf ++ [r]) s.optimization_history
  (⟨h⟩, h)

/-- Keys of the dictionary returned by QAOASolver.solve, transcribed from the
return statement. -/
def qaoaResultKeys : List String :=
  ["bitstring", "energy", "optimal_parameters", "optimization_history",
   "result", "counts"]

/-- Keys of the dictionary returned by VQESolver.solve, transcribed from the
return statement. -/
def vqeResultKeys : List String :=
  ["bitstring", "energy", "optimal_parameters", "optimization_history",
   "result", "counts"]

/-- Keys of the dictionary returned by BruteForceSolver.solve. -/
def bruteForceResultKeys : List String :=
  ["bitstring", "energy", "elapsed_time", "method"]

/-- Keys of the dictionary returned by GreedySolver.solve. -/
def greedyResultKeys : List String :=
  ["bitstring", "energy", "elapsed_time", "method"]

/-- The constructed model for the concrete scenario risk [0.2, 0.5, 0.9],
distance [0.9, 0.5, 0.1], alpha = beta = 1, penalty = 10. -/
def p3 : QUBOProblem := ⟨[0, 3/7, 1], [1, 1/2, 0], 1, 1, 10⟩

/-- The constructed model for the concrete scenario N = 4 with all risk and
distance costs equal to 0.5. -/
def p4 : QUBOProblem := ⟨[1/4, 1/4, 1/4, 1/4], [1/4, 1/4, 1/4, 1/4], 1, 1, 10⟩

/-- The constructed model for the single-item instance risk [0.2],
distance [0.9], alpha = beta = 1, penalty = 10. -/
def p1 : QUBOProblem := ⟨[1], [1], 1, 1, 10⟩

/-- Folding snoc-append over a list appends the list to the accumulator. -/
theorem foldl_snoc {α : Type} :
    ∀ (l acc : List α), l.foldl (fun buf r => buf ++ [r]) acc = acc ++ l
  | [], acc => by simp
  | a :: t, acc => by
      simp only [List.foldl_cons, foldl_snoc t (acc ++ [a]), List.append_assoc,
        List.singleton_append]

/-- Sum of a function mapped over List.range equals the Finset.range sum. -/
theorem sum_map_range (g : ℕ → ℚ) : ∀ n, ((List.range n).map g).sum = ∑ j ∈ Finset.range n, g j
  | 0 => by simp
  | n + 1 => by
      simp [List.range_succ, Finset.sum_range_succ, sum_map_range g n]

/-- Folding a guarded addition accumulates the sum of the guarded values. -/
theorem foldl_ite_add (f : ℕ → ℚ) (q : ℕ → Prop) [DecidablePred q] :
    ∀ (l : List ℕ) (init : ℚ),
      l.foldl (fun acc j => if q j then acc + f j else acc) init
        = init + (l.map (fun j => if q j then f j else 0)).sum
  | [], init => by simp
  | a :: t, init => by
      by_cases h : q a
      · simp only [List.foldl_cons, if_pos h, List.map_cons, List.sum_cons,
          foldl_ite_add f q t (init + f a)]
        ring
      · simp only [List.foldl_cons, if_neg h, List.map_cons, List.sum_cons,
          foldl_ite_add f q t init]
        ring

/-- Entry access through zipWith in terms of the two argument lists. -/
theorem zipWith_getD (f : ℚ → ℚ → ℚ) :
    ∀ (a b : List ℚ) (i : ℕ), i < a.length → i < b.length →
      (List.zipWith f a b).getD i 0 = f (a.getD i 0) (b.getD i 0)
  | [], _, i, ha, _ => by simp at ha
  | _ :: _, [], i, _, hb => by simp at hb
  | x :: xs, y :: ys, 0, _, _ => by simp
  | x :: xs, y :: ys, i + 1, ha, hb => by
      simp only [List.zipWith_cons_cons, List.getD_cons_succ]
      exact zipWith_getD f xs ys i (by simpa using ha) (by simpa using hb)

/-- Sum of the elementwise product as a Finset.range sum of entry products. -/
theorem zipWith_mul_sum :
    ∀ (a b : List ℚ),
      (List.zipWith (fun c v => c * v) a b).sum
        = ∑ i ∈ Finset.range (min a.length b.length), a.getD i 0 * b.getD i 0
  | [], b => by simp
  | a :: t, [] => by simp
  | a :: t, c :: u => by
      simp only [List.zipWith_cons_cons, List.sum_cons, List.length_cons,
        Nat.succ_min_succ, Finset.sum_range_succ', List.getD_cons_succ,
        List.getD_cons_zero, zipWith_mul_sum t u]
      ring

/-- rmin is below its left argument. -/
theorem rmin_le_left (a b : ℚ) : rmin a b ≤ a := by
  unfold rmin; split <;> linarith

/-- rmin is below its right argument. -/
theorem rmin_le_right (a b : ℚ) : rmin a b ≤ b := by
  unfold rmin; split
  · exact le_refl b
  · linarith [not_le.mp (by assumption)]

/-- rmax is above its left argument. -/
theorem le_rmax_left (a b : ℚ) : a ≤ rmax a b := by
  unfold rmax; split
  · assumption
  · exact le_refl a

/-- rmax is above its right argument. -/
theorem le_rmax_right (a b : ℚ) : b ≤ rmax a b := by
  unfold rmax; split
  · exact le_refl b
  · linarith [not_le.mp (by assumption)]

/-- Scanning rmin never goes above the seed. -/
theorem foldl_rmin_le_init : ∀ (t : List ℚ) (a : ℚ), t.foldl rmin a ≤ a
  | [], a => le_refl a
  | b :: t, a =>
      le_trans (by simpa using foldl_rmin_le_init t (rmin a b)) (rmin_le_left a b)

/-- Scanning rmin stays below every scanned element. -/
theorem foldl_rmin_le_mem : ∀ (t : List ℚ) (a x : ℚ), x ∈ t → t.foldl rmin a ≤ x
  | b :: t, a, x, hx => by
      simp only [List.foldl_cons]
      rcases List.mem_cons.mp hx with h | h
      · subst h
        exact le_trans (foldl_rmin_le_init t (rmin a x)) (rmin_le_right a x)
      · exact foldl_rmin_le_mem t (rmin a b) x h

/-- Scanning rmax never goes below the seed. -/
theorem init_le_foldl_rmax : ∀ (t : List ℚ) (a : ℚ), a ≤ t.foldl rmax a
  | [], a => le_refl a
  | b :: t, a =>
      le_trans (le_rmax_left a b) (by simpa using init_le_foldl_rmax t (rmax a b))

/-- Scanning rmax stays above every scanned element. -/
theorem mem_le_foldl_rmax : ∀ (t : List ℚ) (a x : ℚ), x ∈ t → x ≤ t.foldl rmax a
  | b :: t, a, x, hx => by
      simp only [List.foldl_cons]
      rcases List.mem_cons.mp hx with h | h
      · subst h
        exact le_trans (le_rmax_right a x) (init_le_foldl_rmax t (rmax a x))
      · exact mem_le_foldl_rmax t (rmax a b) x h

/-- The list minimum is below every element. -/
theorem listMin_le {l : List ℚ} {x : ℚ} (hx : x ∈ l) : listMin l ≤ x := by
  cases l with
  | nil => cases hx
  | cons a t =>
      rcases List.mem_cons.mp hx with h | h
      · subst h; exact foldl_rmin_le_init t x
      · exact foldl_rmin_le_mem t a x h

/-- The list maximum is above every element. -/
theorem le_listMax {l : List ℚ} {x : ℚ} (hx : x ∈ l) : x ≤ listMax l := by
  cases l with
  | nil => cases hx
  | cons a t =>
      rcases List.mem_cons.mp hx with h | h
      · subst h; exact init_le_foldl_rmax t x
      · exact mem_le_foldl_rmax t a x h

/-- Normalization preserves the array length. -/
theorem normalize_length (arr : List ℚ) : (normalize arr).length = arr.length := by
  unfold normalize
  split <;> simp

/-- Every entry of a normalized nonempty array lies in the unit interval. -/
theorem normalize_mem_bounds {arr : List ℚ} (h : arr ≠ []) :
    ∀ v ∈ normalize arr, 0 ≤ v ∧ v ≤ 1 := by
  intro v hv
  unfold normalize at hv
  split at hv
  · rcases List.eq_of_mem_replicate hv with rfl
    have hlen : 0 < arr.length := List.length_pos.mpr h
    have h1 : (1 : ℚ) ≤ (arr.length : ℚ) := by exact_mod_cast hlen
    constructor
    · positivity
    · rw [div_le_one (by linarith)]
      linarith
  · rcases List.mem_map.mp hv with ⟨x, hx, rfl⟩
    have hmn : listMin arr ≤ x := listMin_le hx
    have hmx : x ≤ listMax arr := le_listMax hx
    have hlt : listMin arr < listMax arr :=
      lt_of_le_of_ne (le_trans hmn hmx) (by rename_i hne; exact fun hc => hne hc.symm)
    constructor
    · exact div_nonneg (by linarith) (by linarith)
    · rw [div_le_one (by linarith)]
      linarith

/-- When every pair of entries of a nonempty array is equal, rmin scanning
returns the seed whenever the seed is an array element. -/
theorem foldl_rmin_const : ∀ (t : List ℚ) (a : ℚ), (∀ x ∈ t, x = a) → t.foldl rmin a = a
  | [], a, _ => rfl
  | b :: t, a, h => by
      have hb : b = a := h b (List.mem_cons_self b t)
      subst hb
      have : rmin b b = b := by unfold rmin; split <;> rfl
      simp only [List.foldl_cons, this]
      exact foldl_rmin_const t b (fun x hx => h x (List.mem_cons_of_mem b hx))

/-- Counterpart of foldl_rmin_const for rmax. -/
theorem foldl_rmax_const : ∀ (t : List ℚ) (a : ℚ), (∀ x ∈ t, x = a) → t.foldl rmax a = a
  | [], a, _ => rfl
  | b :: t, a, h => by
      have hb : b = a := h b (List.mem_cons_self b t)
      subst hb
      have : rmax b b = b := by unfold rmax; split <;> rfl
      simp only [List.foldl_cons, this]
      exact foldl_rmax_const t b (fun x hx => h x (List.mem_cons_of_mem b hx))

/-- On an all-equal array the maximum equals the minimum. -/
theorem listMax_eq_listMin_of_all_eq {arr : List ℚ}
    (h : ∀ a ∈ arr, ∀ b ∈ arr, a = b) : listMax arr = listMin arr := by
  cases arr with
  | nil => rfl
  | cons a t =>
      have hall : ∀ x ∈ t, x = a := fun x hx =>
        h x (List.mem_cons_of_mem a hx) a (List.mem_cons_self a t)
      simp only [listMax, listMin]
      rw [foldl_rmax_const t a hall, foldl_rmin_const t a hall]

/-- On an array with two unequal entries the maximum differs from the minimum. -/
theorem listMax_ne_listMin {arr : List ℚ}
    (h : ∃ a ∈ arr, ∃ b ∈ arr, a ≠ b) : listMax arr ≠ listMin arr := by
  rcases h with ⟨a, ha, b, hb, hab⟩
  intro hc
  have h1 : a ≤ listMax arr := le_listMax ha
  have h2 : listMin arr ≤ a := listMin_le ha
  have h3 : b ≤ listMax arr := le_listMax hb
  have h4 : listMin arr ≤ b := listMin_le hb
  exact hab (by linarith)

/-- Fields of a successfully constructed problem in terms of the inputs. -/
theorem mkQUBO_spec {risk dist : List ℚ} {alpha beta penalty : ℚ} {p : QUBOProblem}
    (h : mkQUBO risk dist alpha beta penalty = some p) :
    p.R = normalize risk ∧ p.D = normalize dist ∧ p.alpha = alpha ∧ p.beta = beta
      ∧ p.penalty = penalty ∧ p.D.length = p.R.length ∧ p.R.length = risk.length
      ∧ risk ≠ [] := by
  unfold mkQUBO at h
  split at h
  · rename_i hc
    cases h
    exact ⟨rfl, rfl, rfl, rfl, rfl,
      by simp [normalize_length, hc.1], by simp [normalize_length], hc.2⟩
  · cases h

/-- A constructed problem has at least one item. -/
theorem mkQUBO_pos {risk dist : List ℚ} {alpha beta penalty : ℚ} {p : QUBOProblem}
    (h : mkQUBO risk dist alpha beta penalty = some p) : 0 < p.N := by
  obtain ⟨_, _, _, _, _, _, h7, h8⟩ := mkQUBO_spec h
  have := List.length_pos.mpr h8
  unfold QUBOProblem.N
  omega

/-- Entries of the normalized cost arrays of a constructed problem are
in the unit interval. -/
theorem mkQUBO_entries {risk dist : List ℚ} {alpha beta penalty : ℚ} {p : QUBOProblem}
    (h : mkQUBO risk dist alpha beta penalty = some p) :
    (∀ v ∈ p.R, 0 ≤ v ∧ v ≤ 1) ∧ (∀ v ∈ p.D, 0 ≤ v ∧ v ≤ 1) := by
  obtain ⟨h1, h2, _, _, _, h6, h7, h8⟩ := mkQUBO_spec h
  have hd : dist ≠ [] := by
    intro hc
    rw [h2, hc] at h6
    rw [h7] at h6
    simp [normalize] at h6
    exact h8 (List.eq_nil_of_length_eq_zero h6.symm)
  constructor
  · rw [h1]; exact normalize_mem_bounds h8
  · rw [h2]; exact normalize_mem_bounds hd

/-- Entry access for a function mapped over List.range. -/
theorem getD_map_range (f : ℕ → ℚ) (n j : ℕ) :
    ((List.range n).map f).getD j 0 = if j < n then f j else 0 := by
  by_cases h : j < n
  · rw [if_pos h, List.getD_eq_getElem?_getD]
    simp [List.getElem?_map, List.getElem?_range h]
  · rw [if_neg h]
    apply List.getD_eq_default
    simpa using not_lt.mp h

/-- Length of a one-hot bitstring. -/
theorem oneHot_length (n i : ℕ) : (oneHot n i).length = n := by simp [oneHot]

/-- Entry access for a one-hot bitstring. -/
theorem oneHot_getD (n i j : ℕ) :
    (oneHot n i).getD j 0 = if j < n then (if j = i then (1 : ℚ) else 0) else 0 :=
  getD_map_range _ n j

/-- One-hot bitstrings are 0/1-valued. -/
theorem oneHot_binary (n i : ℕ) : ∀ v ∈ oneHot n i, v = 0 ∨ v = 1 := by
  intro v hv
  rcases List.mem_map.mp hv with ⟨j, _, rfl⟩
  split <;> simp

/-- Unfolding of a one-hot bitstring at a successor length. -/
theorem oneHot_succ (n i : ℕ) :
    oneHot (n + 1) i = oneHot n i ++ [if n = i then (1 : ℚ) else 0] := by
  simp [oneHot, List.range_succ]

/-- Number of set bits of a one-hot bitstring. -/
theorem numOnes_oneHot : ∀ n i : ℕ, numOnes (oneHot n i) = if i < n then 1 else 0
  | 0, i => by simp [numOnes, oneHot]
  | n + 1, i => by
      rw [oneHot_succ]
      have hrec := numOnes_oneHot n i
      unfold numOnes at hrec ⊢
      rw [List.count_append, hrec]
      by_cases hni : n = i
      · subst hni
        simp [List.count_cons]
      · have h1 : List.count 1 [if n = i then (1 : ℚ) else 0] = 0 := by
          simp [List.count_cons, if_neg hni]
        rw [h1]
        split_ifs <;> omega

/-- The sum of a 0/1-valued bitstring is its number of set bits. -/
theorem sum_eq_numOnes : ∀ (x : List ℚ), (∀ v ∈ x, v = 0 ∨ v = 1) → x.sum = (numOnes x : ℚ)
  | [], _ => by simp [numOnes]
  | a :: t, h => by
      have ht := sum_eq_numOnes t (fun v hv => h v (List.mem_cons_of_mem a hv))
      rcases h a (List.mem_cons_self a t) with rfl | rfl
      · simp [numOnes, List.count_cons, ht]
      · simp only [List.sum_cons, numOnes, List.count_cons, ht]
        norm_num [numOnes]
        ring

/-- A bitstring with no set bits is all zero. -/
theorem numOnes_zero_all_zero {x : List ℚ} (hb : ∀ v ∈ x, v = 0 ∨ v = 1)
    (h : numOnes x = 0) : ∀ v ∈ x, v = 0 := by
  intro v hv
  rcases hb v hv with rfl | rfl
  · rfl
  · exact absurd (List.count_eq_zero.mp h hv) (fun c => c)

/-- Entry access on an all-zero list gives zero. -/
theorem all_zero_getD {x : List ℚ} (h : ∀ v ∈ x, v = 0) (i : ℕ) : x.getD i 0 = 0 := by
  by_cases hi : i < x.length
  · rw [List.getD_eq_getElem x 0 hi]
    exact h _ (List.getElem_mem hi)
  · exact List.getD_eq_default x 0 (not_lt.mp hi)

/-- Entries of a 0/1 bitstring are nonnegative at every index. -/
theorem binary_getD_nonneg {x : List ℚ} (hb : ∀ v ∈ x, v = 0 ∨ v = 1) (i : ℕ) :
    0 ≤ x.getD i 0 := by
  by_cases hi : i < x.length
  · rw [List.getD_eq_getElem x 0 hi]
    rcases hb _ (List.getElem_mem hi) with h | h <;> simp [h]
  · rw [List.getD_eq_default x 0 (not_lt.mp hi)]

/-- The per-index cost of a constructed problem is nonnegative when the
weights are. -/
theorem cost_nonneg {risk dist : List ℚ} {alpha beta penalty : ℚ} {p : QUBOProblem}
    (hp : mkQUBO risk dist alpha beta penalty = some p)
    (ha : 0 ≤ alpha) (hb : 0 ≤ beta) (i : ℕ) : 0 ≤ cost p i := by
  obtain ⟨hR, hD⟩ := mkQUBO_entries hp
  obtain ⟨_, _, ha', hb', _, _, _, _⟩ := mkQUBO_spec hp
  have h1 : 0 ≤ p.R.getD i 0 := by
    by_cases hi : i < p.R.length
    · rw [List.getD_eq_getElem p.R 0 hi]
      exact (hR _ (List.getElem_mem hi)).1
    · rw [List.getD_eq_default p.R 0 (not_lt.mp hi)]
  have h2 : 0 ≤ p.D.getD i 0 := by
    by_cases hi : i < p.D.length
    · rw [List.getD_eq_getElem p.D 0 hi]
      exact (hD _ (List.getElem_mem hi)).1
    · rw [List.getD_eq_default p.D 0 (not_lt.mp hi)]
  unfold cost
  rw [ha', hb']
  positivity

/-- Length of the combined cost array of a constructed problem. -/
theorem costList_length {risk dist : List ℚ} {alpha beta penalty : ℚ} {p : QUBOProblem}
    (hp : mkQUBO risk dist alpha beta penalty = some p) :
    (costList p).length = p.N := by
  obtain ⟨_, _, _, _, _, h6, _, _⟩ := mkQUBO_spec hp
  unfold costList QUBOProblem.N
  rw [List.length_zipWith, h6, Nat.min_self]

/-- Entry access of the combined cost array is the per-index cost. -/
theorem costList_getD {risk dist : List ℚ} {alpha beta penalty : ℚ} {p : QUBOProblem}
    (hp : mkQUBO risk dist alpha beta penalty = some p) {i : ℕ} (hi : i < p.N) :
    (costList p).getD i 0 = cost p i := by
  obtain ⟨_, _, _, _, _, h6, _, _⟩ := mkQUBO_spec hp
  unfold costList cost
  rw [zipWith_getD _ p.R p.D i hi (by rw [h6]; exact hi)]

/-- The linear part of evaluate as a sum of per-index costs times entries. -/
theorem evalLinear_eq {risk dist : List ℚ} {alpha beta penalty : ℚ} {p : QUBOProblem}
    (hp : mkQUBO risk dist alpha beta penalty = some p) {x : List ℚ}
    (hx : x.length = p.N) :
    evalLinear p x = ∑ i ∈ Finset.range p.N, cost p i * x.getD i 0 := by
  unfold evalLinear
  rw [zipWith_mul_sum, costList_length hp, hx, Nat.min_self]
  exact Finset.sum_congr rfl
    (fun i hi => by rw [costList_getD hp (Finset.mem_range.mp hi)])

/-- The sum of a one-hot bitstring is one. -/
theorem oneHot_sum {n j : ℕ} (hj : j < n) : (oneHot n j).sum = 1 := by
  rw [sum_eq_numOnes _ (oneHot_binary n j), numOnes_oneHot, if_pos hj]
  norm_num

/-- Evaluating the core objective at a one-hot bitstring gives the per-index
cost: the penalty term vanishes. -/
theorem evalCore_oneHot {risk dist : List ℚ} {alpha beta penalty : ℚ} {p : QUBOProblem}
    (hp : mkQUBO risk dist alpha beta penalty = some p) {j : ℕ} (hj : j < p.N) :
    evalCore p (oneHot p.N j) = cost p j := by
  unfold evalCore
  rw [oneHot_sum hj, evalLinear_eq hp (oneHot_length p.N j)]
  have hs : ∀ i ∈ Finset.range p.N,
      cost p i * (oneHot p.N j).getD i 0 = if i = j then cost p i else 0 := by
    intro i hi
    rw [oneHot_getD, if_pos (Finset.mem_range.mp hi)]
    split <;> simp
  rw [Finset.sum_congr rfl hs, Finset.sum_ite_eq' (Finset.range p.N) j (cost p),
    if_pos (Finset.mem_range.mpr hj)]
  ring

/-- Length of an enumerated bitstring. -/
theorem bitstringOf_length (n i : ℕ) : (bitstringOf n i).length = n := by
  simp [bitstringOf]

/-- Enumerated bitstrings are 0/1-valued. -/
theorem bitstringOf_binary (n i : ℕ) : ∀ v ∈ bitstringOf n i, v = 0 ∨ v = 1 := by
  intro v hv
  rcases List.mem_map.mp hv with ⟨j, _, rfl⟩
  split <;> simp

/-- The encoded integer of a bitstring is below 2 to the length. -/
theorem encodeBits_lt : ∀ (x : List ℚ), encodeBits x < 2 ^ x.length
  | [] => by simp [encodeBits]
  | a :: t => by
      have ht := encodeBits_lt t
      have hk : 0 < 2 ^ t.length := Nat.two_pow_pos t.length
      simp only [encodeBits, List.length_cons, pow_succ]
      split <;> omega

/-- Quotient of a split binary number by the leading power. -/
theorem div_pow_self (b e m : ℕ) (he : e < 2 ^ m) :
    (b * 2 ^ m + e) / 2 ^ m = b := by
  rw [show b * 2 ^ m + e = 2 ^ m * b + e by ring, Nat.mul_add_div (Nat.two_pow_pos m),
    Nat.div_eq_of_lt he, Nat.add_zero]

/-- Low-order bits of a split binary number ignore the leading digit. -/
theorem div_pow_mod_two (b e m k : ℕ) (_he : e < 2 ^ m) (hk : k < m) :
    ((b * 2 ^ m + e) / 2 ^ k) % 2 = (e / 2 ^ k) % 2 := by
  have h1 : (2 : ℕ) ^ m = 2 ^ k * (2 * 2 ^ (m - k - 1)) := by
    rw [show 2 * 2 ^ (m - k - 1) = 2 ^ (m - k - 1 + 1) by rw [pow_succ]; ring, ← pow_add]
    congr 1
    omega
  have hdiv : (b * 2 ^ m + e) / 2 ^ k = 2 * (b * 2 ^ (m - k - 1)) + e / 2 ^ k := by
    rw [h1, show b * (2 ^ k * (2 * 2 ^ (m - k - 1))) + e
          = 2 ^ k * (2 * (b * 2 ^ (m - k - 1))) + e by ring,
      Nat.mul_add_div (Nat.two_pow_pos k)]
  rw [hdiv, Nat.mul_add_mod]

/-- Decoding after encoding restores a 0/1 bitstring: every binary list of
length n appears in the ascending enumeration bitstringOf n i, i < 2 ^ n. -/
theorem bitstringOf_encodeBits :
    ∀ (x : List ℚ), (∀ v ∈ x, v = 0 ∨ v = 1) → bitstringOf x.length (encodeBits x) = x
  | [], _ => by simp [bitstringOf]
  | a :: t, h => by
      have hbin : ∀ v ∈ t, v = 0 ∨ v = 1 := fun v hv => h v (List.mem_cons_of_mem a hv)
      have ht := bitstringOf_encodeBits t hbin
      have he := encodeBits_lt t
      simp only [encodeBits, List.length_cons, bitstringOf, List.range_succ_eq_map,
        List.map_cons, List.map_map]
      congr 1
      · have hd := div_pow_self (if a = 1 then 1 else 0) (encodeBits t) t.length he
        simp only [Nat.add_sub_cancel, Nat.sub_zero, hd]
        rcases h a (List.mem_cons_self a t) with rfl | rfl <;> norm_num
      · conv_rhs => rw [← ht]
        simp only [bitstringOf]
        apply List.map_congr_left
        intro j hj
        have hjm : j < t.length := List.mem_range.mp hj
        have hexp : t.length + 1 - 1 - Nat.succ j = t.length - 1 - j := by omega
        simp only [Function.comp_apply, hexp]
        rw [div_pow_mod_two _ _ _ _ he (by omega)]

/-- QUBOProblem.evaluate fails exactly on bitstrings of the wrong length. -/
theorem evaluate_eq_none_iff (p : QUBOProblem) (x : List ℚ) :
    p.evaluate x = none ↔ x.length ≠ p.N := by
  unfold QUBOProblem.evaluate
  split <;> simp_all

/-- QUBOProblem.evaluate on a correctly sized bitstring returns the core
objective value. -/
theorem evaluate_eq_some {p : QUBOProblem} {x : List ℚ} (h : x.length = p.N) :
    p.evaluate x = some (evalCore p x) := by
  unfold QUBOProblem.evaluate
  simp [h]

/-- Invariant of the brute-force scan over the first m enumeration indices:
the kept candidate is the first index attaining the minimum energy so far. -/
theorem scan_range_spec (p : QUBOProblem) :
    ∀ m : ℕ, 0 < m →
      ∃ i₀ : ℕ, i₀ < m ∧
        (List.range m).foldl (scanStep p) none
          = some (bitstringOf p.N i₀, evalCore p (bitstringOf p.N i₀)) ∧
        (∀ k, k < m → evalCore p (bitstringOf p.N i₀) ≤ evalCore p (bitstringOf p.N k)) ∧
        (∀ k, k < i₀ → evalCore p (bitstringOf p.N i₀) < evalCore p (bitstringOf p.N k)) := by
  intro m
  induction m with
  | zero => omega
  | succ m ih =>
      intro _
      by_cases hm : 0 < m
      · obtain ⟨i₀, hi₀, hfold, hmin, hfirst⟩ := ih hm
        rw [List.range_succ, List.foldl_append, hfold]
        simp only [List.foldl_cons, List.foldl_nil]
        by_cases hlt : evalCore p (bitstringOf p.N m) < evalCore p (bitstringOf p.N i₀)
        · refine ⟨m, by omega, ?_, ?_, ?_⟩
          · simp [scanStep, hlt]
          · intro k hk
            rcases Nat.lt_succ_iff_lt_or_eq.mp hk with hk' | rfl
            · exact le_trans (le_of_lt hlt) (hmin k hk')
            · exact le_refl _
          · intro k hk
            exact lt_of_lt_of_le hlt (hmin k (by omega))
        · refine ⟨i₀, by omega, ?_, ?_, hfirst⟩
          · simp [scanStep, hlt]
          · intro k hk
            rcases Nat.lt_succ_iff_lt_or_eq.mp hk with hk' | rfl
            · exact hmin k hk'
            · exact not_lt.mp hlt
      · have hm0 : m = 0 := by omega
        subst hm0
        refine ⟨0, by omega, by rw [List.range_succ]; simp [scanStep], ?_,
          by intro k hk; omega⟩
        intro k hk
        have : k = 0 := by omega
        subst this
        exact le_refl _

/-- The brute-force search returns the energy-minimal bitstring with the
least enumeration index. -/
theorem get_optimal_spec (p : QUBOProblem) :
    ∃ i₀, i₀ < 2 ^ p.N ∧
      p.get_optimal_solution
        = some (bitstringOf p.N i₀, evalCore p (bitstringOf p.N i₀)) ∧
      (∀ k, k < 2 ^ p.N →
        evalCore p (bitstringOf p.N i₀) ≤ evalCore p (bitstringOf p.N k)) ∧
      (∀ k, k < i₀ →
        evalCore p (bitstringOf p.N i₀) < evalCore p (bitstringOf p.N k)) := by
  obtain ⟨i₀, h⟩ := scan_range_spec p (2 ^ p.N) (Nat.two_pow_pos p.N)
  exact ⟨i₀, h⟩

/-- Invariant of the np.argmin scan: the result is either the unbeaten seed,
or the position and value of the first strict minimum among the scanned
elements. -/
theorem argminP_spec :
    ∀ (t : List ℚ) (i : ℕ) (b : ℕ × ℚ),
      (argminP t i b = b ∧ ∀ k, k < t.length → b.2 ≤ t.getD k 0)
      ∨ ∃ k, k < t.length ∧ argminP t i b = (i + k, t.getD k 0)
          ∧ t.getD k 0 < b.2
          ∧ (∀ m, m < t.length → t.getD k 0 ≤ t.getD m 0)
          ∧ (∀ m, m < k → t.getD k 0 < t.getD m 0)
  | [], i, b => Or.inl ⟨rfl, by intro k hk; simp at hk⟩
  | a :: t, i, b => by
      by_cases ha : a < b.2
      · have hstep : argminP (a :: t) i b = argminP t (i + 1) (i, a) := by
          simp [argminP, ha]
        rcases argminP_spec t (i + 1) (i, a) with ⟨heq, hall⟩ | ⟨k, hk, heq, hlt, hmin, hfirst⟩
        · refine Or.inr ⟨0, by simp, ?_, by simpa using ha, ?_, ?_⟩
          · rw [hstep, heq]
            simp
          · intro m hm
            cases m with
            | zero => simp
            | succ m' => simpa using hall m' (by simpa using hm)
          · intro m hm
            omega
        · refine Or.inr ⟨k + 1, by simpa using hk, ?_, ?_, ?_, ?_⟩
          · rw [hstep, heq]
            simp only [List.getD_cons_succ]
            rw [Prod.mk.injEq]
            exact ⟨by omega, rfl⟩
          · simp only [List.getD_cons_succ]
            exact lt_trans hlt ha
          · intro m hm
            simp only [List.getD_cons_succ]
            cases m with
            | zero => simpa using le_of_lt hlt
            | succ m' => simpa using hmin m' (by simpa using hm)
          · intro m hm
            simp only [List.getD_cons_succ]
            cases m with
            | zero => simpa using hlt
            | succ m' => simpa using hfirst m' (by omega)
      · have hstep : argminP (a :: t) i b = argminP t (i + 1) b := by
          simp [argminP, ha]
        have hba : b.2 ≤ a := not_lt.mp ha
        rcases argminP_spec t (i + 1) b with ⟨heq, hall⟩ | ⟨k, hk, heq, hlt, hmin, hfirst⟩
        · refine Or.inl ⟨by rw [hstep, heq], ?_⟩
          intro m hm
          cases m with
          | zero => simpa using hba
          | succ m' => simpa using hall m' (by simpa using hm)
        · refine Or.inr ⟨k + 1, by simpa using hk, ?_, ?_, ?_, ?_⟩
          · rw [hstep, heq]
            simp only [List.getD_cons_succ]
            rw [Prod.mk.injEq]
            exact ⟨by omega, rfl⟩
          · simpa using hlt
          · intro m hm
            simp only [List.getD_cons_succ]
            cases m with
            | zero => simpa using le_of_lt (lt_of_lt_of_le hlt hba)
            | succ m' => simpa using hmin m' (by simpa using hm)
          · intro m hm
            simp only [List.getD_cons_succ]
            cases m with
            | zero => simpa using lt_of_lt_of_le hlt hba
            | succ m' => simpa using hfirst m' (by omega)

/-- np.argmin on a nonempty list returns the index of the first occurrence
of the minimum. -/
theorem argminList_spec : ∀ (l : List ℚ), l ≠ [] →
    argminList l < l.length ∧
    (∀ k, k < l.length → l.getD (argminList l) 0 ≤ l.getD k 0) ∧
    (∀ k, k < argminList l → l.getD (argminList l) 0 < l.getD k 0)
  | [], h => absurd rfl h
  | a :: t, _ => by
      rcases argminP_spec t 1 (0, a) with ⟨heq, hall⟩ | ⟨k, hk, heq, hlt, hmin, hfirst⟩
      · have hidx : argminList (a :: t) = 0 := by simp [argminList, heq]
        rw [hidx]
        refine ⟨by simp, ?_, by intro k hk; omega⟩
        intro k hk
        cases k with
        | zero => exact le_refl _
        | succ k' => simpa using hall k' (by simpa using hk)
      · have hidx : argminList (a :: t) = k + 1 := by
          simp [argminList, heq]
          omega
        have hval : (a :: t).getD (k + 1) 0 = t.getD k 0 := by simp
        rw [hidx]
        refine ⟨by simpa using hk, ?_, ?_⟩
        · intro m hm
          rw [hval]
          cases m with
          | zero => simpa using le_of_lt hlt
          | succ m' => simpa using hmin m' (by simpa using hm)
        · intro m hm
          rw [hval]
          cases m with
          | zero => simpa using hlt
          | succ m' => simpa using hfirst m' (by omega)

/-- Construction of the concrete three-item scenario model. -/
theorem mk_p3 : mkQUBO [1/5, 1/2, 9/10] [9/10, 1/2, 1/10] 1 1 10 = some p3 := by
  norm_num [mkQUBO, normalize, listMin, listMax, rmin, rmax, p3]
  intro h
  simp at h

/-- Construction of the concrete four-item all-equal scenario model. -/
theorem mk_p4 : mkQUBO [1/2, 1/2, 1/2, 1/2] [1/2, 1/2, 1/2, 1/2] 1 1 10 = some p4 := by
  norm_num [mkQUBO, normalize, listMin, listMax, rmin, rmax, p4, List.replicate]
  intro h
  simp at h

/-- Construction of the concrete single-item model. -/
theorem mk_p1 : mkQUBO [1/5] [9/10] 1 1 10 = some p1 := by
  norm_num [mkQUBO, normalize, listMin, listMax, rmin, rmax, p1, List.replicate]

/-- Brute-force search result on the three-item scenario model. -/
theorem p3_optimal : p3.get_optimal_solution = some ([0, 1, 0], 13/14) := by
  norm_num [QUBOProblem.get_optimal_solution, QUBOProblem.N, p3, scanStep,
    bitstringOf, evalCore, evalLinear, costList, List.range_succ]

/-- C1: the claim states that for every constructed problem and every
bitstring the spin-form energy reconstructed from the build_hamiltonian
output with z_i = 1 - 2 x_i equals evaluate within 1e-9. The code violates
this: on the single-item problem with risk [0.2], distance [0.9] and the
default weights, the reconstruction yields -8 at the bitstring [0] while
evaluate returns 10, exposing the sign and scaling slips in the
binary-to-spin conversion of build_hamiltonian. -/
theorem c1_hamiltonian_roundtrip_code_bug :
    mkQUBO [1/5] [9/10] 1 1 10 = some p1 ∧
    build_hamiltonian p1 = PauliOp.fromList [(0, -4)] [] ∧
    hamConstant p1 = -4 ∧
    spinEnergy p1 [0] = -8 ∧
    p1.evaluate [0] = some 10 ∧
    ¬(|spinEnergy p1 [0] - 10| ≤ 1 / 10 ^ 9) := by
  have h0 : hcoef p1 0 = -4 := by
    norm_num [hcoef, Qmat, cost, p1, QUBOProblem.N, List.range_succ]
  have hsingle : singleTerms p1 = [(0, -4)] := by
    rw [singleTerms, show List.range p1.N = [0] from rfl]
    norm_num [List.filterMap_cons, h0, emitThreshold]
  have hpair : pairTerms p1 = [] := by
    norm_num [pairTerms, p1, QUBOProblem.N, List.range_succ]
  have hconst : hamConstant p1 = -4 := by
    norm_num [hamConstant, Qmatrix, Qmat, cost, p1, QUBOProblem.N, List.range_succ]
  have hspin : spinEnergy p1 [0] = -8 := by
    rw [spinEnergy, hsingle, hpair, hconst]
    norm_num
  refine ⟨mk_p1, ?_, hconst, hspin, ?_, ?_⟩
  · rw [build_hamiltonian, if_neg (by simp [hsingle]), hsingle, hpair]
  · norm_num [QUBOProblem.evaluate, evalCore, evalLinear, costList, p1, QUBOProblem.N]
  · rw [hspin]
    norm_num

/-- C6 counterexample: the claim asserts normalized distance approximately
[1, 0.43, 0] and optimal energy approximately 0.857 for the three-item
scenario; the code normalizes the distance array to [1, 0.5, 0] and the
optimal energy is 13/14, approximately 0.929, both more than 0.01 away from
the claimed values. -/
theorem c6_scenario_counterexample :
    mkQUBO [1/5, 1/2, 9/10] [9/10, 1/2, 1/10] 1 1 10 = some p3 ∧
    p3.D.getD 1 0 = 1/2 ∧
    ¬(|p3.D.getD 1 0 - 43/100| ≤ 1/100) ∧
    p3.get_optimal_solution = some ([0, 1, 0], 13/14) ∧
    ¬(|(13 : ℚ)/14 - 857/1000| ≤ 1/100) := by
  refine ⟨mk_p3, by norm_num [p3], ?_, p3_optimal, ?_⟩
  · norm_num [p3, abs_of_nonneg]
  · norm_num [abs_of_nonneg]

/-- C6 amended: on the three-item scenario the normalized risk array is
[0, 3/7, 1] (3/7 is approximately 0.43), the normalized distance array is
[1, 0.5, 0], and the Exact Solver returns bitstring [0, 1, 0] with energy
13/14, approximately 0.929. -/
theorem c6_scenario_amended :
    mkQUBO [1/5, 1/2, 9/10] [9/10, 1/2, 1/10] 1 1 10 = some p3 ∧
    p3.R = [0, 3/7, 1] ∧ |(3 : ℚ)/7 - 43/100| ≤ 1/100 ∧
    p3.D = [1, 1/2, 0] ∧
    bruteForceSolve p3 = some ⟨[0, 1, 0], 13/14, some "brute_force"⟩ ∧
    |(13 : ℚ)/14 - 929/1000| ≤ 1/100 := by
  refine ⟨mk_p3, rfl, ?_, rfl, ?_, ?_⟩
  · rw [abs_le]
    constructor <;> norm_num
  · rw [bruteForceSolve, p3_optimal, Option.map_some']
  · rw [abs_le]
    constructor <;> norm_num

/-- C7 counterexample: the claim states the history buffer is cleared at the
start of every solve call, so a second solve call returns no records from the
first. In the code the buffer is created once in the constructor and solve
never resets it: after a first call recording one evaluation and a second
call recording another, the second result carries both records. -/
theorem c7_history_counterexample :
    (solveHistoryResult (solveHistoryResult initVarSolver [⟨1, 5, []⟩]).1 [⟨1, 7, []⟩]).2
      = [⟨1, 5, []⟩, ⟨1, 7, []⟩] ∧
    (solveHistoryResult (solveHistoryResult initVarSolver [⟨1, 5, []⟩]).1 [⟨1, 7, []⟩]).2
      ≠ [⟨1, 7, []⟩] := by
  constructor
  · simp [solveHistoryResult, initVarSolver]
  · simp [solveHistoryResult, initVarSolver]

/-- C7 amended: the optimization_history buffer of a variational solver is
initialized once at construction and never cleared inside solve; each oracle
evaluation appends exactly one record, and the returned history is the whole
accumulated buffer, so it contains the records of all earlier solve calls on
the same instance followed by one record per evaluation of the current call. -/
theorem c7_history_amended (s : VarSolverState) (evals : List HistoryRecord) :
    (solveHistoryResult s evals).2 = s.optimization_history ++ evals ∧
    (solveHistoryResult s evals).1.optimization_history
      = s.optimization_history ++ evals ∧
    ((solveHistoryResult s evals).2).length
      = s.optimization_history.length + evals.length := by
  refine ⟨?_, ?_, ?_⟩ <;> simp [solveHistoryResult, foldl_snoc]

/-- Witness for the C7 amended theorem at a concrete two-call history. -/
theorem c7_history_amended_witness :
    (solveHistoryResult ⟨[⟨1, 5, []⟩]⟩ [⟨1, 7, []⟩]).2
      = [⟨1, 5, []⟩] ++ [⟨1, 7, []⟩] :=
  (c7_history_amended ⟨[⟨1, 5, []⟩]⟩ [⟨1, 7, []⟩]).1

/-- C8 counterexample: the claim states every solver result carries a method
tag; the dictionaries returned by QAOASolver.solve and VQESolver.solve have
no method key at all. -/
theorem c8_method_counterexample :
    "method" ∉ qaoaResultKeys ∧ "method" ∉ vqeResultKeys := by
  exact ⟨by decide, by decide⟩

/-- C8 amended: the classical solver results carry a method tag
("brute_force" and "greedy" respectively), while the dictionaries returned by
the variational solvers contain no method key, so their producer cannot be
identified from a method field. -/
theorem c8_method_amended :
    "method" ∈ bruteForceResultKeys ∧ "method" ∈ greedyResultKeys ∧
    "method" ∉ qaoaResultKeys ∧ "method" ∉ vqeResultKeys ∧
    (∀ p : QUBOProblem, (greedySolve p).method = some "greedy") ∧
    (∀ (p : QUBOProblem) (r : Result),
      bruteForceSolve p = some r → r.method = some "brute_force") := by
  refine ⟨by decide, by decide, by decide, by decide, fun p => rfl, ?_⟩
  intro p r h
  unfold bruteForceSolve at h
  obtain ⟨be, _, hfr⟩ := Option.map_eq_some'.mp h
  rw [← hfr]

/-- Witness for the C8 amended theorem at the concrete three-item model. -/
theorem c8_method_amended_witness :
    (Result.mk [0, 1, 0] (13/14) (some "brute_force")).method
      = some "brute_force" := by
  apply c8_method_amended.2.2.2.2.2 p3
  rw [bruteForceSolve, p3_optimal, Option.map_some']

/-- C9: normalization is total on nonempty arrays: an all-equal array of
length N becomes the uniform array 1/N (never a division error), and an
array with two unequal values is min-max scaled into the unit interval. -/
theorem c9_normalize_total (arr : List ℚ) (h : arr ≠ []) :
    ((∀ a ∈ arr, ∀ b ∈ arr, a = b) →
      normalize arr = List.replicate arr.length (1 / (arr.length : ℚ))) ∧
    ((∃ a ∈ arr, ∃ b ∈ arr, a ≠ b) → ∀ v ∈ normalize arr, 0 ≤ v ∧ v ≤ 1) ∧
    (normalize arr).length = arr.length ∧
    ((∀ a ∈ arr, ∀ b ∈ arr, a = b) →
      ∀ v ∈ normalize arr, v = 1 / (arr.length : ℚ)) := by
  refine ⟨?_, ?_, normalize_length arr, ?_⟩
  · intro hall
    unfold normalize
    rw [if_pos (listMax_eq_listMin_of_all_eq hall)]
  · intro _ v hv
    exact normalize_mem_bounds h v hv
  · intro hall v hv
    unfold normalize at hv
    rw [if_pos (listMax_eq_listMin_of_all_eq hall)] at hv
    exact List.eq_of_mem_replicate hv

/-- Witness for C9: the all-equal pair normalizes to the uniform halves and
the unequal pair stays inside the unit interval. -/
theorem c9_normalize_total_witness :
    normalize [(1:ℚ)/2, 1/2] = [1/2, 1/2] ∧
    (∀ v ∈ normalize [(0:ℚ), 2], 0 ≤ v ∧ v ≤ 1) := by
  constructor
  · have h := (c9_normalize_total [(1:ℚ)/2, 1/2] (by simp)).1
      (by
        intro a ha b hb
        simp at ha hb
        rw [ha, hb])
    rw [h]
    norm_num [List.replicate]
  · exact (c9_normalize_total [(0:ℚ), 2] (by simp)).2.1
      ⟨0, by simp, 2, by simp, by norm_num⟩

/-- C5: evaluate fails exactly on bitstrings whose length differs from N,
otherwise returns the weighted linear costs plus the quadratic penalty, and
on a one-hot bitstring returns exactly the per-index cost. -/
theorem c5_evaluate_spec
    (risk dist : List ℚ) (alpha beta penalty : ℚ) (p : QUBOProblem)
    (hp : mkQUBO risk dist alpha beta penalty = some p) (x : List ℚ) :
    (p.evaluate x = none ↔ x.length ≠ p.N) ∧
    (x.length = p.N →
      p.evaluate x
        = some ((∑ i ∈ Finset.range p.N,
            (alpha * p.R.getD i 0 + beta * p.D.getD i 0) * x.getD i 0)
          + penalty * (x.sum - 1) ^ 2)) ∧
    (∀ j, j < p.N →
      p.evaluate (oneHot p.N j)
        = some (alpha * p.R.getD j 0 + beta * p.D.getD j 0)) := by
  obtain ⟨_, _, ha, hb, hpen, _, _, _⟩ := mkQUBO_spec hp
  refine ⟨evaluate_eq_none_iff p x, ?_, ?_⟩
  · intro hx
    rw [evaluate_eq_some hx]
    congr 1
    unfold evalCore
    rw [evalLinear_eq hp hx, hpen]
    congr 1
    exact Finset.sum_congr rfl (fun i _ => by unfold cost; rw [ha, hb])
  · intro j hj
    rw [evaluate_eq_some (by rw [oneHot_length]), evalCore_oneHot hp hj]
    unfold cost
    rw [ha, hb]

/-- Witness for C5 at the three-item model: a length-2 bitstring fails, and
the one-hot at index 1 evaluates exactly to its combined cost 13/14. -/
theorem c5_evaluate_spec_witness :
    p3.evaluate [1, 1] = none ∧
    p3.evaluate (oneHot p3.N 1) = some (1 * p3.R.getD 1 0 + 1 * p3.D.getD 1 0) ∧
    (1 * p3.R.getD 1 0 + 1 * p3.D.getD 1 0 : ℚ) = 13/14 := by
  refine ⟨?_, ?_, by norm_num [p3]⟩
  · exact ((c5_evaluate_spec _ _ _ _ _ p3 mk_p3 [1, 1]).1).mpr
      (by norm_num [p3, QUBOProblem.N])
  · exact (c5_evaluate_spec _ _ _ _ _ p3 mk_p3 []).2.2 1
      (by norm_num [p3, QUBOProblem.N])

/-- C2: the constraint-repair step of the variational solvers keeps a
feasible extracted bitstring unchanged, replaces any infeasible one by the
one-hot at the argmin of the combined costs, and therefore always returns a
bitstring with exactly one set bit, whatever the oracle produced. -/
theorem c2_variational_repair_one_hot
    (risk dist : List ℚ) (alpha beta penalty : ℚ) (p : QUBOProblem)
    (hp : mkQUBO risk dist alpha beta penalty = some p)
    (x : List ℚ) (hbin : ∀ v ∈ x, v = 0 ∨ v = 1) (_hlen : x.length = p.N) :
    (numOnes x = 1 → repairBitstring p x = x) ∧
    (numOnes x ≠ 1 →
      repairBitstring p x = oneHot p.N (argminList (costList p))) ∧
    (∀ v ∈ repairBitstring p x, v = 0 ∨ v = 1) ∧
    numOnes (repairBitstring p x) = 1 := by
  have hsum : x.sum = (numOnes x : ℚ) := sum_eq_numOnes x hbin
  have hNpos : 0 < p.N := mkQUBO_pos hp
  have hcl : (costList p).length = p.N := costList_length hp
  have hcl_ne : costList p ≠ [] := by
    intro hc
    rw [hc] at hcl
    simp at hcl
    omega
  have hidx : argminList (costList p) < p.N := by
    have := (argminList_spec (costList p) hcl_ne).1
    omega
  have hkeep : numOnes x = 1 → repairBitstring p x = x := by
    intro h1
    rw [repairBitstring, if_neg (by rw [hsum, h1]; norm_num)]
  have hrepl : numOnes x ≠ 1 →
      repairBitstring p x = oneHot p.N (argminList (costList p)) := by
    intro h1
    rw [repairBitstring, if_pos (by rw [hsum]; exact_mod_cast h1)]
  refine ⟨hkeep, hrepl, ?_⟩
  by_cases h1 : numOnes x = 1
  · rw [hkeep h1]
    exact ⟨hbin, h1⟩
  · rw [hrepl h1]
    exact ⟨oneHot_binary _ _, by rw [numOnes_oneHot, if_pos hidx]⟩

/-- Witness for C2 at the three-item model with the all-one extraction, as
produced by an adversarial all-one oracle distribution: the repair discards
it and returns the one-hot argmin bitstring [0, 1, 0]. -/
theorem c2_variational_repair_one_hot_witness :
    repairBitstring p3 [1, 1, 1] = oneHot p3.N (argminList (costList p3)) ∧
    numOnes (repairBitstring p3 [1, 1, 1]) = 1 ∧
    repairBitstring p3 [1, 1, 1] = [0, 1, 0] := by
  have h := c2_variational_repair_one_hot _ _ _ _ _ p3 mk_p3 [1, 1, 1]
    (by norm_num) (by norm_num [QUBOProblem.N, p3])
  refine ⟨h.2.1 ?_, h.2.2.2, ?_⟩
  · norm_num [numOnes, List.count_cons]
  · norm_num [repairBitstring, oneHot, costList, p3, QUBOProblem.N, argminList,
      argminP, List.range_succ]

/-- C10: the greedy solver returns the one-hot bitstring at the first index
minimizing the combined cost, tags the method "greedy", and its energy is the
evaluate value at that bitstring, namely the minimal combined cost itself. -/
theorem c10_greedy_spec
    (risk dist : List ℚ) (alpha beta penalty : ℚ) (p : QUBOProblem)
    (hp : mkQUBO risk dist alpha beta penalty = some p) :
    (greedySolve p).bitstring = oneHot p.N (argminList (costList p)) ∧
    (greedySolve p).method = some "greedy" ∧
    argminList (costList p) < p.N ∧
    (∀ k, k < p.N → cost p (argminList (costList p)) ≤ cost p k) ∧
    (∀ k, k < argminList (costList p) → cost p (argminList (costList p)) < cost p k) ∧
    (greedySolve p).energy = cost p (argminList (costList p)) ∧
    p.evaluate (greedySolve p).bitstring = some ((greedySolve p).energy) ∧
    numOnes (greedySolve p).bitstring = 1 := by
  have hcl : (costList p).length = p.N := costList_length hp
  have hNpos : 0 < p.N := mkQUBO_pos hp
  have hne : costList p ≠ [] := by
    intro hc
    rw [hc] at hcl
    simp at hcl
    omega
  obtain ⟨h1, h2, h3⟩ := argminList_spec (costList p) hne
  have hidx : argminList (costList p) < p.N := by omega
  refine ⟨rfl, rfl, hidx, ?_, ?_, ?_, ?_, ?_⟩
  · intro k hk
    have hle := h2 k (by omega)
    rwa [costList_getD hp hidx, costList_getD hp hk] at hle
  · intro k hk
    have hlt := h3 k hk
    rwa [costList_getD hp hidx, costList_getD hp (lt_trans hk hidx)] at hlt
  · exact evalCore_oneHot hp hidx
  · exact evaluate_eq_some (oneHot_length _ _)
  · rw [show (greedySolve p).bitstring = oneHot p.N (argminList (costList p)) from rfl,
      numOnes_oneHot, if_pos hidx]

/-- Witness for C10 at the four-item all-equal model: the normalized arrays
are uniform quarters, the tie-break picks index 0 and the energy is 1/2. -/
theorem c10_greedy_spec_witness :
    (greedySolve p4).bitstring = oneHot p4.N (argminList (costList p4)) ∧
    p4.R = [1/4, 1/4, 1/4, 1/4] ∧
    argminList (costList p4) = 0 ∧
    (greedySolve p4).bitstring = [1, 0, 0, 0] ∧
    (greedySolve p4).energy = 1/2 := by
  refine ⟨(c10_greedy_spec _ _ _ _ _ p4 mk_p4).1, rfl, ?_, ?_, ?_⟩
  · norm_num [argminList, argminP, costList, p4]
  · norm_num [greedySolve, oneHot, costList, p4, QUBOProblem.N, argminList,
      argminP, List.range_succ]
  · norm_num [greedySolve, evalCore, evalLinear, costList, p4, QUBOProblem.N,
      oneHot, argminList, argminP, List.range_succ]

/-- Membership in the emitted single-Z terms of build_hamiltonian. -/
theorem mem_singleTerms {p : QUBOProblem} {i : ℕ} {c : ℚ} :
    (i, c) ∈ singleTerms p ↔
      i < p.N ∧ emitThreshold < |hcoef p i| ∧ c = hcoef p i := by
  constructor
  · intro hmem
    obtain ⟨a, ha, hfa⟩ := List.mem_filterMap.mp hmem
    by_cases hth : emitThreshold < |hcoef p a|
    · rw [if_pos hth] at hfa
      simp only [Option.some.injEq, Prod.mk.injEq] at hfa
      obtain ⟨rfl, rfl⟩ := hfa
      exact ⟨List.mem_range.mp ha, hth, rfl⟩
    · rw [if_neg hth] at hfa
      cases hfa
  · rintro ⟨hi, hth, rfl⟩
    exact List.mem_filterMap.mpr ⟨i, List.mem_range.mpr hi, by rw [if_pos hth]⟩

/-- Membership in the emitted two-body terms of build_hamiltonian. -/
theorem mem_pairTerms {p : QUBOProblem} {i j : ℕ} {c : ℚ} :
    ((i, j), c) ∈ pairTerms p ↔
      i < j ∧ j < p.N ∧ emitThreshold < |Qmat p i j / 4| ∧ c = Qmat p i j / 4 := by
  constructor
  · intro hmem
    obtain ⟨a, ha, hmem2⟩ := List.mem_flatMap.mp hmem
    obtain ⟨b, hb, hfb⟩ := List.mem_filterMap.mp hmem2
    have hbr := List.mem_range'_1.mp hb
    have haN : a < p.N := List.mem_range.mp ha
    by_cases hth : emitThreshold < |Jcoef p a b|
    · rw [if_pos hth] at hfb
      simp only [Option.some.injEq, Prod.mk.injEq] at hfb
      obtain ⟨⟨rfl, rfl⟩, rfl⟩ := hfb
      exact ⟨by omega, by omega, hth, rfl⟩
    · rw [if_neg hth] at hfb
      cases hfb
  · rintro ⟨hij, hjN, hth, rfl⟩
    refine List.mem_flatMap.mpr ⟨i, List.mem_range.mpr (by omega), ?_⟩
    refine List.mem_filterMap.mpr
      ⟨j, List.mem_range'_1.mpr ⟨by omega, by omega⟩, ?_⟩
    rw [Jcoef, if_pos hth]

/-- C4: the Hamiltonian mapper computes h and J exactly by the stated
formulas, emits a term exactly when its magnitude exceeds 1e-10, tracks the
constant as the sum of all Q entries over 4 plus the diagonal sum over 4, and
returns the pure-constant identity representation when every term is below
the threshold. -/
theorem c4_build_hamiltonian_coefficients
    (risk dist : List ℚ) (alpha beta penalty : ℚ) (p : QUBOProblem)
    (_hp : mkQUBO risk dist alpha beta penalty = some p) :
    (∀ i, i < p.N →
      hcoef p i
        = Qmat p i i / 2 + ∑ j ∈ (Finset.range p.N).erase i, Qmat p i j / 4) ∧
    (∀ i c, (i, c) ∈ singleTerms p ↔
      i < p.N ∧ emitThreshold < |hcoef p i| ∧ c = hcoef p i) ∧
    (∀ i j c, ((i, j), c) ∈ pairTerms p ↔
      i < j ∧ j < p.N ∧ emitThreshold < |Qmat p i j / 4| ∧ c = Qmat p i j / 4) ∧
    (hamConstant p
      = (∑ i ∈ Finset.range p.N, ∑ j ∈ Finset.range p.N, Qmat p i j) / 4
        + (∑ i ∈ Finset.range p.N, Qmat p i i) / 4) ∧
    ((∀ i, i < p.N → |hcoef p i| ≤ emitThreshold) →
     (∀ i j, i < j → j < p.N → |Qmat p i j / 4| ≤ emitThreshold) →
      build_hamiltonian p = PauliOp.identity p.N (hamConstant p)) := by
  refine ⟨?_, fun i c => mem_singleTerms, fun i j c => mem_pairTerms, ?_, ?_⟩
  · intro i _
    unfold hcoef
    rw [foldl_ite_add (fun j => Qmat p i j / 4) (fun j => j ≠ i)
        (List.range p.N) (Qmat p i i / 2)]
    congr 1
    rw [sum_map_range (fun j => if j ≠ i then Qmat p i j / 4 else 0) p.N,
      ← Finset.sum_filter]
    congr 1
    exact Finset.filter_ne' (Finset.range p.N) i
  · have hrows : ((Qmatrix p).map List.sum).sum
        = ∑ i ∈ Finset.range p.N, ∑ j ∈ Finset.range p.N, Qmat p i j := by
      unfold Qmatrix
      rw [List.map_map]
      rw [show (List.sum ∘ fun i => (List.range p.N).map (Qmat p i))
            = fun i => ((List.range p.N).map (Qmat p i)).sum from rfl]
      rw [sum_map_range (fun i => ((List.range p.N).map (Qmat p i)).sum) p.N]
      exact Finset.sum_congr rfl (fun i _ => sum_map_range (Qmat p i) p.N)
    unfold hamConstant
    rw [hrows, sum_map_range (fun i => Qmat p i i) p.N]
  · intro hs hp2
    have h1 : singleTerms p = [] := by
      rw [List.eq_nil_iff_forall_not_mem]
      rintro ⟨i, c⟩ ht
      obtain ⟨hiN, hth, _⟩ := mem_singleTerms.mp ht
      have := hs i hiN
      linarith
    have h2 : pairTerms p = [] := by
      rw [List.eq_nil_iff_forall_not_mem]
      rintro ⟨⟨i, j⟩, c⟩ ht
      obtain ⟨hij, hjN, hth, _⟩ := mem_pairTerms.mp ht
      have := hp2 i j hij hjN
      linarith
    rw [build_hamiltonian, if_pos ⟨h1, h2⟩]

/-- Witness for C4 at the three-item model: the coefficient formula and
emission at index 0, where h equals 11/2 and exceeds the threshold. -/
theorem c4_build_hamiltonian_coefficients_witness :
    (hcoef p3 0
      = Qmat p3 0 0 / 2 + ∑ j ∈ (Finset.range p3.N).erase 0, Qmat p3 0 j / 4) ∧
    hcoef p3 0 = 11/2 ∧
    (0, 11/2) ∈ singleTerms p3 := by
  have h := c4_build_hamiltonian_coefficients _ _ _ _ _ p3 mk_p3
  have hc : hcoef p3 0 = 11/2 := by
    norm_num [hcoef, Qmat, cost, p3, QUBOProblem.N, List.range_succ]
  refine ⟨h.1 0 (by norm_num [p3, QUBOProblem.N]), hc, ?_⟩
  exact (h.2.1 0 (11/2)).mpr
    ⟨by norm_num [p3, QUBOProblem.N],
     by rw [hc]; norm_num [emitThreshold, abs_of_nonneg], hc.symm⟩

/-- C3: the brute-force optimum of a constructed problem (with nonnegative
weights and a penalty exceeding every achievable cost, as the data model
requires) is energy-minimal among all 0/1 bitstrings accepted by evaluate,
is the first minimizer in the ascending enumeration, and has exactly one set
bit; the Exact Solver wraps it with the brute_force method tag. -/
theorem c3_brute_force_optimal
    (risk dist : List ℚ) (alpha beta penalty : ℚ) (p : QUBOProblem)
    (hp : mkQUBO risk dist alpha beta penalty = some p)
    (ha : 0 ≤ alpha) (hb : 0 ≤ beta)
    (hpen : ∀ i, i < p.N → cost p i < penalty) :
    ∃ x e i₀,
      p.get_optimal_solution = some (x, e) ∧
      bruteForceSolve p = some ⟨x, e, some "brute_force"⟩ ∧
      x = bitstringOf p.N i₀ ∧ i₀ < 2 ^ p.N ∧
      p.evaluate x = some e ∧
      (∀ y ey, (∀ v ∈ y, v = 0 ∨ v = 1) → p.evaluate y = some ey → e ≤ ey) ∧
      (∀ k, k < i₀ → e < evalCore p (bitstringOf p.N k)) ∧
      (∀ v ∈ x, v = 0 ∨ v = 1) ∧
      numOnes x = 1 := by
  obtain ⟨i₀, hi2, hopt, hmin, hfirst⟩ := get_optimal_spec p
  set x := bitstringOf p.N i₀ with hx
  set e := evalCore p x with he
  obtain ⟨_, _, hal, hbe, hpe, _, _, _⟩ := mkQUBO_spec hp
  have hNpos := mkQUBO_pos hp
  have hglobal : ∀ y ey, (∀ v ∈ y, v = 0 ∨ v = 1) → p.evaluate y = some ey → e ≤ ey := by
    intro y ey hybin hyev
    have hylen : y.length = p.N := by
      by_contra hc
      rw [(evaluate_eq_none_iff p y).mpr hc] at hyev
      cases hyev
    have hyval : ey = evalCore p y := by
      rw [evaluate_eq_some hylen] at hyev
      exact (Option.some.inj hyev).symm
    have hdec : bitstringOf p.N (encodeBits y) = y := by
      rw [← hylen]
      exact bitstringOf_encodeBits y hybin
    have henc : encodeBits y < 2 ^ p.N := by
      rw [← hylen]
      exact encodeBits_lt y
    have hm := hmin (encodeBits y) henc
    rw [hdec] at hm
    rw [hyval]
    exact hm
  have he0 : e ≤ cost p 0 := by
    have h1 : p.evaluate (oneHot p.N 0) = some (evalCore p (oneHot p.N 0)) :=
      evaluate_eq_some (oneHot_length _ _)
    have h2 := hglobal (oneHot p.N 0) _ (oneHot_binary _ _) h1
    rwa [evalCore_oneHot hp hNpos] at h2
  have hcost0 : cost p 0 < p.penalty := by
    rw [hpe]
    exact hpen 0 hNpos
  have hcost0nn : 0 ≤ cost p 0 := cost_nonneg hp ha hb 0
  have hPpos : 0 < p.penalty := lt_of_le_of_lt hcost0nn hcost0
  have hxbin : ∀ v ∈ x, v = 0 ∨ v = 1 := bitstringOf_binary _ _
  have hxlen : x.length = p.N := bitstringOf_length _ _
  have hlin_nonneg : 0 ≤ evalLinear p x := by
    rw [evalLinear_eq hp hxlen]
    apply Finset.sum_nonneg
    intro i _
    exact mul_nonneg (cost_nonneg hp ha hb i) (binary_getD_nonneg hxbin i)
  have hxsum : x.sum = (numOnes x : ℚ) := sum_eq_numOnes x hxbin
  have hone : numOnes x = 1 := by
    by_contra hne
    rcases Nat.lt_or_ge (numOnes x) 1 with h0 | h2
    · have h00 : numOnes x = 0 := by omega
      have hzero : ∀ v ∈ x, v = 0 := numOnes_zero_all_zero hxbin h00
      have hlin0 : evalLinear p x = 0 := by
        rw [evalLinear_eq hp hxlen]
        apply Finset.sum_eq_zero
        intro i _
        rw [all_zero_getD hzero i, mul_zero]
      have hex : e = p.penalty := by
        rw [he]
        unfold evalCore
        rw [hlin0, hxsum, h00]
        push_cast
        ring
      rw [hex] at he0
      linarith
    · have h2' : (2 : ℚ) ≤ (numOnes x : ℚ) := by
        exact_mod_cast (by omega : 2 ≤ numOnes x)
      have hsq : (1 : ℚ) ≤ ((numOnes x : ℚ) - 1) ^ 2 := by nlinarith
      have hge : p.penalty ≤ e := by
        rw [he]
        unfold evalCore
        rw [hxsum]
        nlinarith [hlin_nonneg, hPpos]
      linarith
  refine ⟨x, e, i₀, hopt, ?_, rfl, hi2, evaluate_eq_some hxlen, hglobal, hfirst,
    hxbin, hone⟩
  rw [bruteForceSolve, hopt, Option.map_some']

/-- Witness for C3 at the three-item model: the returned optimum is one-hot
and equals [0, 1, 0] with energy 13/14. -/
theorem c3_brute_force_optimal_witness :
    (∃ x e, p3.get_optimal_solution = some (x, e) ∧ numOnes x = 1
      ∧ (∀ v ∈ x, v = 0 ∨ v = 1)) ∧
    p3.get_optimal_solution = some ([0, 1, 0], 13/14) := by
  have hpen : ∀ i, i < p3.N → cost p3 i < 10 := by
    intro i hi
    have h3 : p3.N = 3 := rfl
    rw [h3] at hi
    interval_cases i <;> norm_num [cost, p3]
  constructor
  · obtain ⟨x, e, i₀, h1, _, _, _, _, _, _, hbin, hone⟩ :=
      c3_brute_force_optimal _ _ _ _ _ p3 mk_p3 (by norm_num) (by norm_num) hpen
    exact ⟨x, e, h1, hone, hbin⟩
  · exact p3_optimal

end QuantumAegis
